import Mathlib

/-!
Verification of the contribution-attribution engine of `git-reviewer`.

The development shallowly embeds the Go sources.  The repository carries
several generations of the same engine; the current implementation is the
`ContributionCounter` code (shell `git blame` + `container/heap` selection),
and definitions below are translated from it unless a comment says
otherwise.  Machine integers are modelled as `Nat` with an explicit
`% 65536` wherever the Go code uses `uint16`.  `float64` fields that the
code only ever compares (never adds) are modelled as `ℚ`; `float64`
counters that are only ever incremented by `1` are modelled as `Nat`
(exact for every count below `2^53`, far beyond the `uint16` wrap that
matters here).
-/

/-- Go `Stat` (current version): `Reviewer string; Percentage float64`.
`Percentage` is only compared by the selection code, so it is modelled as
`ℚ`; the comparisons agree with IEEE `float64` comparisons on the
(non-NaN) values the program produces. -/
structure Stat where
  reviewer : String
  percentage : ℚ
deriving DecidableEq, Repr

instance : Inhabited Stat := ⟨⟨"", 0⟩⟩

/-- Shorthand for the score projection used throughout. -/
def Stat.q (s : Stat) : ℚ := s.percentage

/-! ## Aggregation state (`generateCounts` collector)

`generateCounts` keeps `linesByCommitter map[string]float64` and
`totalLines uint16`, both bumped once per attributed line in the single
collector goroutine.  The Go map is modelled as an association list with
update-or-append semantics (a Go map is unordered; every fact proved
below about the map is invariant under the list order). -/

structure AggState where
  committers : List (String × Nat)
  totalLines : Nat
deriving DecidableEq, Repr

/-- `m[author]++` on a Go map: increment if present, else insert with 1. -/
def incr : List (String × Nat) → String → List (String × Nat)
  | [], a => [(a, 1)]
  | (k, v) :: rest, a => if a = k then (k, v + 1) :: rest else (k, v) :: incr rest a

/-- One iteration of the collector loop body:
`linesByCommitter[author]++; totalLines++` with `totalLines` a `uint16`. -/
def aggStep (st : AggState) (author : String) : AggState :=
  ⟨incr st.committers author, (st.totalLines + 1) % 65536⟩

/-- Folding the collector over the whole attribution stream. -/
def aggregate (attrs : List String) : AggState :=
  attrs.foldl aggStep ⟨[], 0⟩

/-- Sum of all per-contributor counts in the accumulated map. -/
def sumCounts : List (String × Nat) → Nat
  | [] => 0
  | (_, v) :: rest => v + sumCounts rest

/-- The count recorded for a key (0 when absent, as in a Go map read). -/
def lookupCount : List (String × Nat) → String → Nat
  | [], _ => 0
  | (k0, v) :: rest, k => if k = k0 then v else lookupCount rest k

/-- Whether a key is present in the map. -/
def containsKey : List (String × Nat) → String → Bool
  | [], _ => false
  | (k0, _) :: rest, k => k == k0 || containsKey rest k

/-! ## Identity canonicalization (`runAndReport` + mailmap) -/

/-- A mailmap is `map[string]string`; modelled as an association list. -/
def mmLookup : List (String × String) → String → Option String
  | [], _ => none
  | (k0, v) :: rest, k => if k = k0 then some v else mmLookup rest k

/-- `runAndReport`: `if e, ok := r.Mailmap[email]; ok { e } else { email }`. -/
def canonEmail (mm : List (String × String)) (email : String) : String :=
  match mmLookup mm email with
  | some e => e
  | none => email

/-- Go `blameInfo`: the email and the `YYYY-MM-DD` date scanned from one
`git blame -ce` output line. -/
structure BlameLine where
  email : String
  date : String
deriving DecidableEq, Repr

/-- Go byte-wise string `<`, on the character lists (identical to byte
order on the ASCII data compared here, shorter-prefix first). -/
def chListLt : List Char → List Char → Bool
  | [], [] => false
  | [], _ :: _ => true
  | _ :: _, [] => false
  | a :: as, b :: bs => if a < b then true else if b < a then false else chListLt as bs

/-- The attribution strings `runAndReport` sends for one path:
lines whose date is not strictly before `Since` (the code compares the
`YYYY-MM-DD` strings byte-wise: `if r.Since > string(bi.date) continue`),
each canonicalized through the mailmap. -/
def retainedAttributions (since : String) (mm : List (String × String))
    (lines : List BlameLine) : List String :=
  (lines.filter (fun bi => !chListLt bi.date.data since.data)).map
    (fun bi => canonEmail mm bi.email)

/-! ## Date-argument validation (`checkDateArg` in the cmd package)

`dateRx = regexp.MustCompile("\\d{4}-\\d{2}-\\d{2}")` and
`checkDateArg` only asks whether `dateRx.Find` locates a match anywhere
inside the input. -/

/-- Whether the list of characters begins with `DDDD-DD-DD` (D a digit),
the shape matched by `dateRx` at one position. -/
def dateShapeHead : List Char → Bool
  | a :: b :: c :: d :: e :: f :: g :: h :: i :: j :: _ =>
    a.isDigit && b.isDigit && c.isDigit && d.isDigit && e == '-' &&
      f.isDigit && g.isDigit && h == '-' && i.isDigit && j.isDigit
  | _ => false

/-- `dateRx.Find(input) != nil`: some position starts a match. -/
def containsDateShape : List Char → Bool
  | [] => false
  | c :: rest => dateShapeHead (c :: rest) || containsDateShape rest

/-- `checkDateArg` from the cmd package. -/
def checkDateArg (input : String) : Except String Unit :=
  if input.length = 0 then .error "no input"
  else if containsDateShape input.data then .ok ()
  else .error "input does not match expected format (YYYY-MM-DD)"

def exceptFails : Except String Unit → Bool
  | .error _ => true
  | .ok _ => false

/-- The cmd entry point aborts the run (before constructing the engine)
exactly when the flag is nonempty and `checkDateArg` failed:
`if len(*since) > 0 && err != nil { return }`. -/
def sinceConfigRejected (since : String) : Bool :=
  decide (0 < since.length) && exceptFails (checkDateArg since)

/-- Modelled from the spec: "must parse as a calendar date (format:
4-digit year, 2-digit month, 2-digit day, dash-separated)" — the
validation the engine is claimed to perform (the git2go-era code used
`time.Parse("2006-01-02", …)`, which enforces exactly this).  Length
is exactly 10, the fields are digits, and month/day lie in calendar
range, with leap-year handling for February. -/
def specDaysInMonth (year month : Nat) : Nat :=
  if month = 2 then
    if year % 4 = 0 ∧ (year % 100 ≠ 0 ∨ year % 400 = 0) then 29 else 28
  else if month = 4 ∨ month = 6 ∨ month = 9 ∨ month = 11 then 30
  else 31

def digitVal (c : Char) : Nat := c.toNat - '0'.toNat

def specIsCalendarDate (s : String) : Bool :=
  match s.data with
  | [y1, y2, y3, y4, d1, m1, m2, d2, a1, a2] =>
    y1.isDigit && y2.isDigit && y3.isDigit && y4.isDigit && d1 == '-' &&
      m1.isDigit && m2.isDigit && d2 == '-' && a1.isDigit && a2.isDigit &&
      (let year := ((digitVal y1 * 10 + digitVal y2) * 10 + digitVal y3) * 10 + digitVal y4
       let month := digitVal m1 * 10 + digitVal m2
       let day := digitVal a1 * 10 + digitVal a2
       decide (1 ≤ month) && decide (month ≤ 12) && decide (1 ≤ day) &&
         decide (day ≤ specDaysInMonth year month))
  | _ => false

/-! ## Extension filtering (`considerExt`, current version) -/

/-- `defaultIgnoreExt` from the source. -/
def defaultIgnoreExt : List String := ["svg", "json", "nock", "xml"]

/-- `strings.HasSuffix(path, ext)` modelled on the character lists (the
paths and extensions involved are ASCII, where Go byte suffixes and
character suffixes coincide). -/
def hasSuffix (path ext : String) : Bool :=
  ext.data.isSuffixOf path.data

/-- The two option fields `considerExt` reads. -/
structure ExtOpts where
  ignoredExtensions : List String
  onlyExtensions : List String

/-- `considerExt` (current version): the ignore list is the defaults
plus the caller-supplied ignores; an `OnlyExtensions` allow-list takes
precedence; with no allow-list a path passes only if no ignore entry is
a suffix of it. -/
def considerExt (path : String) (opts : ExtOpts) : Bool :=
  let ignExt := defaultIgnoreExt ++ opts.ignoredExtensions
  if opts.onlyExtensions.length = 0 ∧ ignExt.length = 0 then true
  else if 0 < opts.onlyExtensions.length then
    opts.onlyExtensions.any (fun ext => hasSuffix path ext)
  else if 0 < ignExt.length then
    ignExt.all (fun ext => !hasSuffix path ext)
  else false

/-! ## Go `container/heap` over `Stats`

`chooseTopN` (current version) drives `container/heap` with the methods
of `Stats` (`Less i j ↔ s[i].Percentage < s[j].Percentage`, i.e. a
min-heap), then finishes with `sort.Sort(sort.Reverse(top))`.  The slice
is modelled as a `List Stat`; `up`/`down` are the loops of Go
`container/heap`, translated index for index. -/

/-- `s[i].Percentage`, with the (never exercised) out-of-range default
of Go left as the zero `Stat`; all uses below are bounds-checked. -/
def pctAt (l : List Stat) (i : Nat) : ℚ :=
  (l.getD i default).percentage

/-- `Stats.Less(i, j)`. -/
def lessAt (l : List Stat) (i j : Nat) : Bool :=
  decide (pctAt l i < pctAt l j)

/-- `Stats.Swap(i, j)`. -/
def swapAt (l : List Stat) (i j : Nat) : List Stat :=
  (l.set i (l.getD j default)).set j (l.getD i default)

/-- `container/heap.up`: sift the element at `j` towards the root while
it is smaller than its parent.  (In Go, `i := (j-1)/2; if i == j || !h.Less(j, i) break`;
`i == j` happens exactly at `j = 0`.) -/
def upGo (l : List Stat) (j : Nat) : List Stat :=
  if _h : j = 0 then l
  else if lessAt l j ((j - 1) / 2) then upGo (swapAt l ((j - 1) / 2) j) ((j - 1) / 2)
  else l
termination_by j
decreasing_by
  omega

/-- The child of `i` that `container/heap.down` compares against: the
right child `2i+2` when it exists within `n` and is the smaller of the
two, otherwise the left child `2i+1`. -/
def downChild (l : List Stat) (i n : Nat) : Nat :=
  if 2 * i + 2 < n then (if lessAt l (2 * i + 2) (2 * i + 1) then 2 * i + 2 else 2 * i + 1)
  else 2 * i + 1

/-- `container/heap.down` restricted to the first `n` positions: pick
the smaller existing child of `i`; swap and continue while that child is
smaller. -/
def downGo (l : List Stat) (i n : Nat) : List Stat :=
  if _h : n ≤ 2 * i + 1 then l
  else if lessAt l (downChild l i n) i then downGo (swapAt l i (downChild l i n)) (downChild l i n) n
  else l
termination_by n - i
decreasing_by
  unfold downChild
  split <;> (try split) <;> omega

/-- `container/heap.Init`: `for i := n/2 - 1; i >= 0; i-- { down(h, i, n) }`. -/
def heapInit (l : List Stat) : List Stat :=
  (List.range (l.length / 2)).reverse.foldl (fun acc i => downGo acc i l.length) l

/-- `container/heap.Push`: append, then sift the new last element up. -/
def heapPush (l : List Stat) (x : Stat) : List Stat :=
  upGo (l ++ [x]) l.length

/-- The heap state left behind by `container/heap.Pop`:
`n := Len()-1; Swap(0, n); down(0, n)`, then the slice `Pop` removes the
last element.  `chooseTopN` discards the returned element, so only the
remaining heap is modelled.  The `[]` branch is unreachable from
`chooseTopN` (it pops only a heap of size `n ≥ 1`). -/
def heapPopList (l : List Stat) : List Stat :=
  if l.length = 0 then []
  else (downGo (swapAt l 0 (l.length - 1)) 0 (l.length - 1)).dropLast

/-- Stable descending insertion by `Percentage`.  `sort.Sort` runs plain
insertion sort for slices shorter than 13 elements, which is exactly
this; for longer slices Go uses an unstable pdqsort, but every theorem
below about longer inputs depends only on the result being *some*
descending reordering, which both algorithms guarantee. -/
def insertStatDesc (x : Stat) : List Stat → List Stat
  | [] => [x]
  | y :: ys => if y.percentage ≤ x.percentage then x :: y :: ys else y :: insertStatDesc x ys

/-- `sort.Sort(sort.Reverse(top))` as applied by `chooseTopN`. -/
def sortStatsDesc : List Stat → List Stat
  | [] => []
  | x :: xs => insertStatDesc x (sortStatsDesc xs)

/-- One iteration of the `chooseTopN` scan.  `none` models the Go panic:
when `n = 0` and the heap is empty, `¬(top.Len() < n)` forces evaluation
of `top[0].Percentage`, an index-out-of-range on the empty slice. -/
def chooseTopNStep (n : Nat) (top : List Stat) (x : Stat) : Option (List Stat) :=
  if top.length < n then
    some (heapPush (if top.length = n then heapPopList top else top) x)
  else if top.length = 0 then none
  else if pctAt top 0 < x.percentage then
    some (heapPush (if top.length = n then heapPopList top else top) x)
  else
    some top

/-- The `for _, stat := range s` loop of `chooseTopN`. -/
def chooseTopNLoop (n : Nat) : List Stat → List Stat → Option (List Stat)
  | top, [] => some top
  | top, x :: rest =>
    match chooseTopNStep n top x with
    | none => none
    | some top2 => chooseTopNLoop n top2 rest

/-- `chooseTopN` (current version): empty heap, `heap.Init`, the scan,
then the final descending sort.  `none` models a panic. -/
def chooseTopNGo (n : Nat) (s : List Stat) : Option (List Stat) :=
  match chooseTopNLoop n (heapInit []) s with
  | none => none
  | some top => some (sortStatsDesc top)

/-! ## The run facade (`FindReviewers` over `generateCounts`)

The blame source is the external collaborator: the model receives, for
each path, either `none` (the `git blame` command failed for that path)
or the parsed `blameInfo` lines.  `generateCounts` fans the paths out
and aborts if any `runAndReport` returned an error (`rg.err` is sticky;
the code then bails with `return nil, 0, rg.err` — in an unlucky
interleaving it instead deadlocks on `wg.Wait`, but in no execution does
it return partial totals). -/

inductive RunErr where
  | blameFailed
  | noReviewers
deriving DecidableEq, Repr

def generateCounts (since : String) (mm : List (String × String))
    (blames : List (Option (List BlameLine))) : Except RunErr AggState :=
  if blames.any (fun b => b.isNone) then .error .blameFailed
  else .ok (aggregate (((blames.filterMap id).map (retainedAttributions since mm)).flatten))

/-- `FindReviewers` (current version) after `generateCounts`: normalize
each count in place by the `uint16` grand total, build the `Stats`
slice, pick `maxStats = min(3, len)`, run `chooseTopN`, and report
`noReviewersErr` exactly when the selection is empty.  Scores use exact
rational division; Lean division by zero yields `0` where Go would give
`+Inf` — reachable only in the `uint16`-wraparound state, and never
consulted in deciding between `ok` and the errors.  Go iterates the map
in unspecified order; the model uses insertion order (all facts proved
below are order-invariant). -/
def rankFromState (st : AggState) : Option (Except RunErr (List Stat)) :=
  match chooseTopNGo
    (min 3 (st.committers.map (fun p => Stat.mk p.1 ((p.2 : ℚ) / (st.totalLines : ℚ)))).length)
    (st.committers.map (fun p => Stat.mk p.1 ((p.2 : ℚ) / (st.totalLines : ℚ)))) with
  | none => none
  | some topN => if topN.length = 0 then some (.error .noReviewers) else some (.ok topN)

/-- `FindReviewers` after the blame fan-out.  The `Since` default ("six
months before now" when the caller passes none) is wall-clock dependent
and outside the model: `since` arrives here already resolved. -/
def findReviewers (since : String) (mm : List (String × String))
    (blames : List (Option (List BlameLine))) : Option (Except RunErr (List Stat)) :=
  match generateCounts since mm blames with
  | .error e => some (.error e)
  | .ok st => rankFromState st

/-! ## The skip-silently variant (git2go `FindReviewers`)

The earlier git2go implementation walks the paths sequentially:
`b, err := r.Repo.BlameFile(p, &opts); if err != nil { continue }`, then
folds each hunk whose signature time is not before `since` into
`linesByCommiter map[string]uint16` under `reviewerKey` and into the
`uint16` total. -/

structure Hunk where
  origName : String
  origEmail : String
  origWhen : Nat
  linesInHunk : Nat
deriving DecidableEq, Repr

/-- git2go-era `reviewerKey`: name and email resolved independently
through the mailmap, combined as `"name <email>"`. -/
def reviewerKeyOld (mm : List (String × String)) (name email : String) : String :=
  (match mmLookup mm name with | some n => n | none => name) ++ " <" ++
    (match mmLookup mm email with | some e => e | none => email) ++ ">"

/-- `m[k] += d` on a `map[string]uint16`. -/
def incrBy : List (String × Nat) → String → Nat → List (String × Nat)
  | [], k, d => [(k, d % 65536)]
  | (k0, v) :: rest, k, d =>
    if k = k0 then (k0, (v + d) % 65536) :: rest else (k0, v) :: incrBy rest k d

/-- One hunk of the git2go blame loop (skips hunks older than `since`). -/
def hunkStep (since : Nat) (mm : List (String × String)) (st : AggState) (h : Hunk) : AggState :=
  if h.origWhen < since then st
  else
    ⟨incrBy st.committers (reviewerKeyOld mm h.origName h.origEmail) h.linesInHunk,
      (st.totalLines + h.linesInHunk) % 65536⟩

/-- One path of the git2go blame loop: a failed `BlameFile` simply moves
on to the next path (`continue`); a successful one folds its hunks. -/
def pathStepSkip (since : Nat) (mm : List (String × String))
    (st : AggState) (b : Option (List Hunk)) : AggState :=
  match b with
  | none => st
  | some hunks => hunks.foldl (hunkStep since mm) st

/-- The git2go blame loop over all paths. -/
def generateCountsSkip (since : Nat) (mm : List (String × String))
    (blames : List (Option (List Hunk))) : AggState :=
  blames.foldl (pathStepSkip since mm) ⟨[], 0⟩


/-! ## Characterizing the aggregation fold -/

theorem strBeqFalse {x y : String} (h : ¬x = y) : (x == y) = false := by
  simpa using h

theorem lookupCount_incr (m : List (String × Nat)) (a k : String) :
    lookupCount (incr m a) k = lookupCount m k + (if k = a then 1 else 0) := by
  induction m with
  | nil =>
    by_cases h : k = a <;> simp [incr, lookupCount, h]
  | cons p rest ih =>
    obtain ⟨k0, v⟩ := p
    by_cases ha : a = k0
    · subst ha
      by_cases hk : k = a <;> simp [incr, lookupCount, hk]
    · by_cases hk : k = k0
      · subst hk
        simp [incr, ha, lookupCount, Ne.symm ha]
      · simp [incr, ha, lookupCount, hk, ih]

theorem containsKey_incr (m : List (String × Nat)) (a k : String) :
    containsKey (incr m a) k = (containsKey m k || k == a) := by
  induction m with
  | nil =>
    by_cases h : k = a <;> simp [incr, containsKey, h]
  | cons p rest ih =>
    obtain ⟨k0, v⟩ := p
    by_cases ha : a = k0
    · subst ha
      by_cases hk : k = a <;> simp [incr, containsKey, hk]
    · by_cases hk : k = k0
      · subst hk
        simp [incr, ha, containsKey, ih, Bool.or_assoc]
      · simp [incr, ha, containsKey, ih, Bool.or_assoc, strBeqFalse hk]

theorem sumCounts_incr (m : List (String × Nat)) (a : String) :
    sumCounts (incr m a) = sumCounts m + 1 := by
  induction m with
  | nil => simp [incr, sumCounts]
  | cons p rest ih =>
    obtain ⟨k0, v⟩ := p
    by_cases ha : a = k0
    · simp [incr, ha, sumCounts]
      omega
    · simp [incr, ha, sumCounts] at ih ⊢
      omega


theorem agg_foldl_lookup (l : List String) (st : AggState) (k : String) :
    lookupCount (l.foldl aggStep st).committers k = lookupCount st.committers k + l.count k := by
  induction l generalizing st with
  | nil => simp
  | cons a rest ih =>
    rw [List.foldl_cons, ih, List.count_cons]
    show lookupCount (incr st.committers a) k + _ = _
    rw [lookupCount_incr]
    by_cases h : k = a
    · simp [h]
      omega
    · simp [h, strBeqFalse h, Ne.symm h]

theorem agg_foldl_contains (l : List String) (st : AggState) (k : String) :
    containsKey (l.foldl aggStep st).committers k = (containsKey st.committers k || l.contains k) := by
  induction l generalizing st with
  | nil => simp
  | cons a rest ih =>
    rw [List.foldl_cons, ih]
    show (containsKey (incr st.committers a) k || _) = _
    rw [containsKey_incr]
    by_cases h : k = a
    · simp [h, List.contains_cons, Bool.or_assoc]
    · simp [h, List.contains_cons, Bool.or_assoc, strBeqFalse h]

theorem agg_foldl_sum (l : List String) (st : AggState) :
    sumCounts (l.foldl aggStep st).committers = sumCounts st.committers + l.length := by
  induction l generalizing st with
  | nil => simp
  | cons a rest ih =>
    rw [List.foldl_cons, ih]
    show sumCounts (incr st.committers a) + _ = _
    rw [sumCounts_incr]
    simp only [List.length_cons]
    omega

theorem agg_foldl_total (l : List String) (st : AggState) (h : st.totalLines < 65536) :
    (l.foldl aggStep st).totalLines = (st.totalLines + l.length) % 65536 := by
  induction l generalizing st with
  | nil => simpa using (Nat.mod_eq_of_lt h).symm
  | cons a rest ih =>
    rw [List.foldl_cons, ih (aggStep st a) (Nat.mod_lt _ (by omega))]
    show ((st.totalLines + 1) % 65536 + rest.length) % 65536 = _
    rw [Nat.mod_add_mod]
    congr 1
    simp only [List.length_cons]
    omega

theorem aggregate_lookup (l : List String) (k : String) :
    lookupCount (aggregate l).committers k = l.count k := by
  simpa [lookupCount] using agg_foldl_lookup l ⟨[], 0⟩ k

theorem aggregate_contains (l : List String) (k : String) :
    containsKey (aggregate l).committers k = l.contains k := by
  simpa [containsKey] using agg_foldl_contains l ⟨[], 0⟩ k

theorem aggregate_sum (l : List String) :
    sumCounts (aggregate l).committers = l.length := by
  simpa [sumCounts] using agg_foldl_sum l ⟨[], 0⟩

theorem aggregate_total (l : List String) :
    (aggregate l).totalLines = l.length % 65536 := by
  simpa using agg_foldl_total l ⟨[], 0⟩ (by decide)

theorem aggregate_committers_nil_iff (l : List String) :
    (aggregate l).committers = [] ↔ l = [] := by
  constructor
  · intro h
    cases l with
    | nil => rfl
    | cons a rest =>
      have := aggregate_contains (a :: rest) a
      rw [h] at this
      simp [containsKey, List.contains_cons] at this
  · intro h
    simp [h, aggregate]

/-- A permutation of the batches induces a permutation of the
concatenated record stream. -/
theorem flatten_perm_of_perm {α : Type} {l₁ l₂ : List (List α)} (h : l₁.Perm l₂) :
    l₁.flatten.Perm l₂.flatten := by
  induction h with
  | nil => rfl
  | cons x _ ih => simpa using ih.append_left x
  | swap x y l =>
    simp only [List.flatten_cons]
    rw [← List.append_assoc, ← List.append_assoc]
    exact (List.perm_append_comm).append_right _
  | trans _ _ ih1 ih2 => exact ih1.trans ih2

/-- **C3** (confirmed).  For every set of attribution records and every
permutation of the order in which paths (and their records) are
processed, aggregation produces identical per-contributor totals
(identical key set and identical count for every key — a Go map carries
no order) and an identical grand total. -/
theorem c3_aggregation_order_invariant (b₁ b₂ : List (List String)) (h : b₁.Perm b₂) :
    (∀ k, lookupCount (aggregate b₁.flatten).committers k =
        lookupCount (aggregate b₂.flatten).committers k) ∧
    (∀ k, containsKey (aggregate b₁.flatten).committers k =
        containsKey (aggregate b₂.flatten).committers k) ∧
    (aggregate b₁.flatten).totalLines = (aggregate b₂.flatten).totalLines := by
  have hf : b₁.flatten.Perm b₂.flatten := flatten_perm_of_perm h
  refine ⟨fun k => ?_, fun k => ?_, ?_⟩
  · rw [aggregate_lookup, aggregate_lookup, hf.count_eq]
  · rw [aggregate_contains, aggregate_contains]
    rw [Bool.eq_iff_iff]
    simp only [List.contains_iff_exists_mem_beq]
    constructor
    · rintro ⟨x, hx, he⟩
      exact ⟨x, hf.mem_iff.mp hx, he⟩
    · rintro ⟨x, hx, he⟩
      exact ⟨x, hf.mem_iff.mpr hx, he⟩
  · rw [aggregate_total, aggregate_total, hf.length_eq]

/-- Witness for C3: two one-record paths processed in the two orders. -/
theorem c3_aggregation_order_invariant_witness :
    (∀ k, lookupCount (aggregate ([["a@x"], ["b@y"]]).flatten).committers k =
        lookupCount (aggregate ([["b@y"], ["a@x"]]).flatten).committers k) ∧
    (∀ k, containsKey (aggregate ([["a@x"], ["b@y"]]).flatten).committers k =
        containsKey (aggregate ([["b@y"], ["a@x"]]).flatten).committers k) ∧
    (aggregate ([["a@x"], ["b@y"]]).flatten).totalLines =
      (aggregate ([["b@y"], ["a@x"]]).flatten).totalLines :=
  c3_aggregation_order_invariant [["a@x"], ["b@y"]] [["b@y"], ["a@x"]] (by decide)

/-- **C2** (corrected) — counterexample.  The grand-total counter is a
`uint16` while the per-contributor counts are exact: after 65536
attributed lines the counter has wrapped to 0 but the per-contributor
counts sum to 65536, so the claimed equality fails on this input. -/
theorem c2_counterexample :
    ¬ ((aggregate (List.replicate 65536 "wrap@example.com")).totalLines =
        sumCounts (aggregate (List.replicate 65536 "wrap@example.com")).committers) := by
  intro h
  rw [aggregate_total, aggregate_sum, List.length_replicate] at h
  exact absurd h (by decide)

/-- **C2** (corrected) — amended claim.  At every point during
aggregation (i.e. after any stream of attributions) the grand-total
counter equals the sum of all per-contributor counts *reduced modulo
2^16*; the two agree exactly whenever fewer than 65536 lines have been
attributed. -/
theorem c2_conservation (attrs : List String) :
    (aggregate attrs).totalLines = sumCounts (aggregate attrs).committers % 65536 ∧
    (attrs.length < 65536 →
      (aggregate attrs).totalLines = sumCounts (aggregate attrs).committers) := by
  constructor
  · rw [aggregate_total, aggregate_sum]
  · intro h
    rw [aggregate_total, aggregate_sum, Nat.mod_eq_of_lt h]

/-- Witness for C2 (amended): a single attribution, counter 1 = sum 1. -/
theorem c2_conservation_witness :
    (aggregate ["w@x"]).totalLines = sumCounts (aggregate ["w@x"]).committers :=
  (c2_conservation ["w@x"]).2 (by decide)

/-- **C5** (corrected) — counterexample.  One successful path and one
failing path: the current implementation (`generateCounts`) reports the
blame failure for the whole run instead of succeeding with the totals of
the successful path, refuting the claim. -/
theorem c5_counterexample :
    findReviewers "" [] [some [⟨"ok@example.com", "2030-01-01"⟩], none] =
      some (.error .blameFailed) := by
  rfl

/-- **C5** (corrected) — amended claim.  In the earlier git2go variant a
path the blame source cannot resolve is skipped and the totals are
exactly those of the successful paths (dropping the failed paths does
not change the result); in the current implementation any blame failure
makes the whole run fail with that error. -/
theorem c5_skip_vs_abort :
    (∀ (since : Nat) (mm : List (String × String)) (blames : List (Option (List Hunk))),
      generateCountsSkip since mm blames =
        generateCountsSkip since mm ((blames.filterMap id).map some)) ∧
    (∀ (since : String) (mm : List (String × String))
      (blames : List (Option (List BlameLine))),
      blames.any (fun b => b.isNone) = true →
      findReviewers since mm blames = some (.error .blameFailed)) := by
  constructor
  · intro since mm blames
    unfold generateCountsSkip
    generalize (⟨[], 0⟩ : AggState) = st
    induction blames generalizing st with
    | nil => rfl
    | cons b rest ih =>
      cases b with
      | none => simpa [pathStepSkip] using ih st
      | some hunks => simp [pathStepSkip, ih]
  · intro since mm blames h
    simp [findReviewers, generateCounts, h]

/-- Witness for C5 (amended): a concrete failing path aborts the run. -/
theorem c5_skip_vs_abort_witness :
    findReviewers "" [] [some [], none] = some (.error .blameFailed) :=
  c5_skip_vs_abort.2 "" [] [some [], none] (by decide)

/-- **C8** (confirmed).  A raw identity absent from the alias table
passes through unchanged, and two attribution records whose raw emails
canonicalize to the same email are accumulated into the same contributor
bucket (their two lines land on one key). -/
theorem c8_identity_merging :
    (∀ (mm : List (String × String)) (e : String),
      mmLookup mm e = none → canonEmail mm e = e) ∧
    (∀ (mm : List (String × String)) (e₁ e₂ d₁ d₂ since : String),
      canonEmail mm e₁ = canonEmail mm e₂ →
      chListLt d₁.data since.data = false →
      chListLt d₂.data since.data = false →
      lookupCount (aggregate (retainedAttributions since mm
        [⟨e₁, d₁⟩, ⟨e₂, d₂⟩])).committers (canonEmail mm e₁) = 2) := by
  constructor
  · intro mm e h
    simp [canonEmail, h]
  · intro mm e₁ e₂ d₁ d₂ since hc h1 h2
    have hr : retainedAttributions since mm [⟨e₁, d₁⟩, ⟨e₂, d₂⟩] =
        [canonEmail mm e₁, canonEmail mm e₁] := by
      simp [retainedAttributions, h1, h2, ← hc]
    rw [hr]
    simp [aggregate, aggStep, incr, lookupCount]

/-- Witness for C8: the alias table of the spec scenario,
`b@old.com → b@new.com`, merges the two records into one bucket of 2. -/
theorem c8_identity_merging_witness :
    lookupCount (aggregate (retainedAttributions "2020-01-01"
      [("b@old.com", "b@new.com")]
      [⟨"b@old.com", "2030-06-01"⟩, ⟨"b@new.com", "2030-06-01"⟩])).committers
      (canonEmail [("b@old.com", "b@new.com")] "b@old.com") = 2 :=
  c8_identity_merging.2 [("b@old.com", "b@new.com")] "b@old.com" "b@new.com"
    "2030-06-01" "2030-06-01" "2020-01-01" (by decide) (by decide) (by decide)

/-- A string that is a well-formed calendar date is nonempty and
contains the `\d{4}-\d{2}-\d{2}` shape (at position 0). -/
theorem calendar_implies_shape (s : String) (h : specIsCalendarDate s = true) :
    s.length ≠ 0 ∧ containsDateShape s.data = true := by
  unfold specIsCalendarDate at h
  split at h
  next y1 y2 y3 y4 d1 m1 m2 d2 a1 a2 heq =>
    simp only [Bool.and_eq_true, beq_iff_eq] at h
    obtain ⟨⟨⟨⟨⟨⟨⟨⟨⟨h1, h2⟩, h3⟩, h4⟩, h5⟩, h6⟩, h7⟩, h8⟩, h9⟩, h10⟩ := h
    constructor
    · show s.data.length ≠ 0
      rw [heq]
      simp
    · rw [heq]
      simp [containsDateShape, dateShapeHead, h1, h2, h3, h4, h5, h6, h7, h8, h9]
  next =>
    exact absurd h (by simp)

/-- **C9** (corrected) — counterexample.  `2024-13-45` is not a calendar
date (month 13, day 45), yet the run is not rejected: `checkDateArg`
only runs an unanchored regex `Find` for `\d{4}-\d{2}-\d{2}`, which that
string matches. -/
theorem c9_counterexample :
    specIsCalendarDate "2024-13-45" = false ∧
      sinceConfigRejected "2024-13-45" = false := by
  constructor
  · decide
  · decide

/-- **C9** (corrected) — amended claim.  The run is rejected with the
configuration error (before the engine is even constructed) exactly when
the caller-supplied value is nonempty and contains no substring of shape
`\d{4}-\d{2}-\d{2}`; every well-formed calendar date is accepted, but so
is any other string containing the digit shape. -/
theorem c9_date_check (s : String) :
    (sinceConfigRejected s = true ↔
      (s.length ≠ 0 ∧ containsDateShape s.data = false)) ∧
    (specIsCalendarDate s = true → sinceConfigRejected s = false) := by
  have part1 : sinceConfigRejected s = true ↔
      (s.length ≠ 0 ∧ containsDateShape s.data = false) := by
    by_cases h0 : s.length = 0
    · simp [sinceConfigRejected, checkDateArg, h0, exceptFails]
    · have hpos : 0 < s.length := Nat.pos_of_ne_zero h0
      by_cases hc : containsDateShape s.data
      · simp [sinceConfigRejected, checkDateArg, h0, hc, exceptFails, hpos]
      · simp [sinceConfigRejected, checkDateArg, h0, hc, exceptFails, hpos]
  refine ⟨part1, fun hcal => ?_⟩
  obtain ⟨hne, hshape⟩ := calendar_implies_shape s hcal
  cases hr : sinceConfigRejected s with
  | false => rfl
  | true =>
    obtain ⟨_, hfalse⟩ := part1.mp hr
    rw [hshape] at hfalse
    exact absurd hfalse (by simp)

/-- Witness for C9 (amended): the well-formed leap-day date 2024-02-29
is accepted (no configuration rejection). -/
theorem c9_date_check_witness :
    sinceConfigRejected "2024-02-29" = false :=
  (c9_date_check "2024-02-29").2 (by decide)

/-- **C10** (confirmed).  With no caller-supplied `OnlyExtensions`
allow-list, any changed path ending in one of the built-in default
ignored extensions (`svg`, `json`, `nock`, `xml`) is rejected by
`considerExt`, even when the caller supplied no ignore list of their
own. -/
theorem c10_default_extension_ignore (opts : ExtOpts) (path ext : String)
    (honly : opts.onlyExtensions = []) (hmem : ext ∈ defaultIgnoreExt)
    (hsuf : hasSuffix path ext = true) :
    considerExt path opts = false := by
  have hmem2 : ext ∈ defaultIgnoreExt ++ opts.ignoredExtensions :=
    List.mem_append_left _ hmem
  have hall : (defaultIgnoreExt ++ opts.ignoredExtensions).all
      (fun e => !hasSuffix path e) = false := by
    rw [List.all_eq_false]
    exact ⟨ext, hmem2, by simp [hsuf]⟩
  have h1 : ¬(opts.onlyExtensions.length = 0 ∧
      (defaultIgnoreExt ++ opts.ignoredExtensions).length = 0) := by
    simp [defaultIgnoreExt]
  have h2 : ¬(0 < opts.onlyExtensions.length) := by
    simp [honly]
  have h3 : 0 < (defaultIgnoreExt ++ opts.ignoredExtensions).length := by
    simp [defaultIgnoreExt]
  simp only [considerExt, if_neg h1, if_neg h2, if_pos h3, hall]

/-- Witness for C10: `assets/logo.svg` is rejected although the caller
supplied only a custom ignore list and no allow-list. -/
theorem c10_default_extension_ignore_witness :
    considerExt "assets/logo.svg" ⟨["tmp"], []⟩ = false :=
  c10_default_extension_ignore ⟨["tmp"], []⟩ "assets/logo.svg" "svg" rfl
    (by decide) (by decide)

/-! ## Basic facts about `swapAt` -/

theorem length_swapAt (l : List Stat) (i j : Nat) :
    (swapAt l i j).length = l.length := by
  simp [swapAt]

theorem statD_set_self (l : List Stat) (i : Nat) (a : Stat) (h : i < l.length) :
    (l.set i a).getD i default = a := by
  rw [List.getD_eq_getElem?_getD, List.getElem?_set_self]
  · rfl
  · exact h

theorem statD_set_ne (l : List Stat) (i k : Nat) (a : Stat) (h : i ≠ k) :
    (l.set i a).getD k default = l.getD k default := by
  rw [List.getD_eq_getElem?_getD, List.getElem?_set_ne h, List.getD_eq_getElem?_getD]

theorem pctAt_swapAt_snd (l : List Stat) (i j : Nat) (hj : j < l.length) :
    pctAt (swapAt l i j) j = pctAt l i := by
  unfold pctAt swapAt
  rw [statD_set_self _ _ _ (by simpa using hj)]

theorem pctAt_swapAt_fst (l : List Stat) (i j : Nat) (hi : i < l.length)
    (hij : i ≠ j) : pctAt (swapAt l i j) i = pctAt l j := by
  unfold pctAt swapAt
  rw [statD_set_ne _ _ _ _ (Ne.symm hij), statD_set_self _ _ _ hi]

theorem pctAt_swapAt_other (l : List Stat) (i j k : Nat) (hki : k ≠ i)
    (hkj : k ≠ j) : pctAt (swapAt l i j) k = pctAt l k := by
  unfold pctAt swapAt
  rw [statD_set_ne _ _ _ _ (Ne.symm hkj), statD_set_ne _ _ _ _ (Ne.symm hki)]

theorem set_getD_self (l : List Stat) (i : Nat) (h : i < l.length) :
    l.set i (l.getD i default) = l := by
  induction l generalizing i with
  | nil => simp at h
  | cons b t ih =>
    cases i with
    | zero => simp
    | succ k =>
      have hk : k < t.length := by simpa using h
      have := ih k hk
      rw [List.getD_eq_getElem?_getD] at this
      simp [List.set, this]

theorem cons_getD_set_perm (t : List Stat) (m : Nat) (a : Stat) (h : m < t.length) :
    ((t.getD m default) :: t.set m a).Perm (a :: t) := by
  induction t generalizing m with
  | nil => simp at h
  | cons b t2 ih =>
    cases m with
    | zero =>
      simp only [List.getD_cons_zero, List.set]
      exact List.Perm.swap a b t2
    | succ k =>
      have hk : k < t2.length := by simpa using h
      simp only [List.getD_cons_succ, List.set]
      refine ((List.Perm.swap b (t2.getD k default) (t2.set k a)).trans ?_).trans
        (List.Perm.swap a b t2)
      exact (ih k hk).cons b

theorem swapAt_perm (l : List Stat) (i j : Nat) (hi : i < l.length)
    (hj : j < l.length) : (swapAt l i j).Perm l := by
  induction l generalizing i j with
  | nil => simp at hi
  | cons b t ih =>
    cases i with
    | zero =>
      cases j with
      | zero =>
        unfold swapAt
        simp only [List.getD_cons_zero, List.set]
        exact List.Perm.refl _
      | succ m =>
        have hm : m < t.length := by simpa using hj
        unfold swapAt
        simp only [List.getD_cons_zero, List.getD_cons_succ, List.set]
        exact cons_getD_set_perm t m b hm
    | succ mi =>
      cases j with
      | zero =>
        have hmi : mi < t.length := by simpa using hi
        unfold swapAt
        simp only [List.getD_cons_zero, List.getD_cons_succ, List.set]
        exact cons_getD_set_perm t mi b hmi
      | succ mj =>
        have hmi : mi < t.length := by simpa using hi
        have hmj : mj < t.length := by simpa using hj
        unfold swapAt
        simp only [List.getD_cons_succ, List.set]
        exact (ih mi mj hmi hmj).cons b

/-! ## Sift-up -/

/-- The zero-based array-heap order: every non-root position within the
list is at least its parent (a min-heap on `Percentage`). -/
def IsHeap (l : List Stat) : Prop :=
  ∀ k, 0 < k → k < l.length → pctAt l ((k - 1) / 2) ≤ pctAt l k

/-- Heap order everywhere except possibly on the edge into `j`, plus:
the children of `j` (if any) already dominate the parent of `j`.  This
is the invariant `up` maintains while the freshly pushed element rises. -/
def AlmostHeapUp (l : List Stat) (j : Nat) : Prop :=
  (∀ k, 0 < k → k < l.length → k ≠ j → pctAt l ((k - 1) / 2) ≤ pctAt l k) ∧
  (0 < j → ∀ c, c < l.length → (c - 1) / 2 = j → pctAt l ((j - 1) / 2) ≤ pctAt l c)

theorem upGo_length (j : Nat) : ∀ l : List Stat, (upGo l j).length = l.length := by
  induction j using Nat.strong_induction_on with
  | _ j ih =>
    intro l
    rw [upGo]
    split
    · rfl
    · split
      · rw [ih _ (by omega), length_swapAt]
      · rfl

theorem upGo_perm (j : Nat) : ∀ l : List Stat, j < l.length → (upGo l j).Perm l := by
  induction j using Nat.strong_induction_on with
  | _ j ih =>
    intro l hj
    rw [upGo]
    split
    · exact List.Perm.refl _
    · split
      next h0 hless =>
        have hij : (j - 1) / 2 < j := by omega
        refine (ih _ hij _ ?_).trans (swapAt_perm l _ j (by omega) hj)
        rw [length_swapAt]
        omega
      · exact List.Perm.refl _

theorem upGo_isHeap (j : Nat) : ∀ l : List Stat, j < l.length →
    AlmostHeapUp l j → IsHeap (upGo l j) := by
  induction j using Nat.strong_induction_on with
  | _ j ih =>
    intro l hj hA
    obtain ⟨ha, hgp⟩ := hA
    rw [upGo]
    split
    next h0 =>
      subst h0
      intro k hk hklen
      exact ha k hk hklen (by omega)
    next h0 =>
      have hij : (j - 1) / 2 < j := by omega
      split
      next hless =>
        rw [lessAt, decide_eq_true_eq] at hless
        -- the swapped list: position (j-1)/2 now holds the rising value,
        -- position j holds the old parent
        apply ih _ hij _ (by rw [length_swapAt]; omega)
        have hilen : (j - 1) / 2 < l.length := by omega
        have hPi : pctAt (swapAt l ((j - 1) / 2) j) ((j - 1) / 2) = pctAt l j :=
          pctAt_swapAt_fst l _ j hilen (by omega)
        have hPj : pctAt (swapAt l ((j - 1) / 2) j) j = pctAt l ((j - 1) / 2) :=
          pctAt_swapAt_snd l _ j hj
        constructor
        · -- heap order away from the new hole (j-1)/2
          intro k hk hklen hki
          rw [length_swapAt] at hklen
          by_cases hkj : k = j
          · subst hkj
            have hpar : (k - 1) / 2 = (k - 1) / 2 := rfl
            rw [hPj, hPi]
            exact le_of_lt hless
          · have hPk : pctAt (swapAt l ((j - 1) / 2) j) k = pctAt l k :=
              pctAt_swapAt_other l _ j k hki hkj
            by_cases hpi : (k - 1) / 2 = (j - 1) / 2
            · -- k is the sibling of j (another child of the hole)
              rw [hPk, hpi, hPi]
              have h1 : pctAt l ((k - 1) / 2) ≤ pctAt l k := ha k hk hklen hkj
              rw [hpi] at h1
              exact le_trans (le_of_lt hless) h1
            · by_cases hpj : (k - 1) / 2 = j
              · -- k is a child of j: use the grandparent condition
                rw [hPk, hpj, hPj]
                exact hgp (by omega) k hklen hpj
              · rw [hPk, pctAt_swapAt_other l _ j _ hpi hpj]
                exact ha k hk hklen hkj
        · -- grandparent condition at the new hole (j-1)/2
          intro hi0 c hclen hc
          rw [length_swapAt] at hclen
          have hcgt : (j - 1) / 2 < c := by omega
          have hparpar : ((j - 1) / 2 - 1) / 2 ≠ (j - 1) / 2 := by omega
          have hparparj : ((j - 1) / 2 - 1) / 2 ≠ j := by omega
          rw [pctAt_swapAt_other l _ j _ hparpar hparparj]
          have hedge : pctAt l (((j - 1) / 2 - 1) / 2) ≤ pctAt l ((j - 1) / 2) :=
            ha ((j - 1) / 2) hi0 hilen (by omega)
          by_cases hcj : c = j
          · subst hcj
            rw [hPj]
            exact hedge
          · rw [pctAt_swapAt_other l _ j c (by omega) hcj]
            have h2 : pctAt l ((c - 1) / 2) ≤ pctAt l c :=
              ha c (by omega) hclen hcj
            rw [hc] at h2
            exact le_trans hedge h2
      next hless =>
        rw [lessAt] at hless
        simp only [decide_eq_true_eq] at hless
        push_neg at hless
        intro k hk hklen
        by_cases hkj : k = j
        · subst hkj
          exact hless
        · exact ha k hk hklen hkj

/-! ## Sift-down -/

/-- Heap order on the first `n` positions only (during `Pop` the slice
still physically holds the outgoing element at position `n`). -/
def IsHeapTo (l : List Stat) (n : Nat) : Prop :=
  ∀ k, 0 < k → k < n → pctAt l ((k - 1) / 2) ≤ pctAt l k

/-- Heap order within `n` except possibly on the edges out of `i`, plus:
the children of `i` already dominate the parent of `i`.  This is the
invariant `down` maintains as the displaced root value sinks. -/
def AlmostHeapDown (l : List Stat) (i n : Nat) : Prop :=
  (∀ k, 0 < k → k < n → (k - 1) / 2 ≠ i → pctAt l ((k - 1) / 2) ≤ pctAt l k) ∧
  (0 < i → ∀ c, c < n → (c - 1) / 2 = i → pctAt l ((i - 1) / 2) ≤ pctAt l c)

theorem downChild_cases (l : List Stat) (i n : Nat) :
    (downChild l i n = 2 * i + 1 ∧
      (2 * i + 2 < n → pctAt l (2 * i + 1) ≤ pctAt l (2 * i + 2))) ∨
    (downChild l i n = 2 * i + 2 ∧ 2 * i + 2 < n ∧
      pctAt l (2 * i + 2) < pctAt l (2 * i + 1)) := by
  unfold downChild
  by_cases h2 : 2 * i + 2 < n
  · by_cases hl : lessAt l (2 * i + 2) (2 * i + 1) = true
    · right
      have hl2 := hl
      rw [lessAt, decide_eq_true_eq] at hl2
      refine ⟨?_, h2, hl2⟩
      rw [if_pos h2, if_pos hl]
    · left
      have hl2 := hl
      rw [lessAt] at hl2
      simp only [decide_eq_true_eq] at hl2
      refine ⟨?_, fun _ => not_lt.mp hl2⟩
      rw [if_pos h2, if_neg hl]
  · left
    rw [if_neg h2]
    exact ⟨rfl, fun hc => absurd hc h2⟩

theorem downChild_lt (l : List Stat) (i n : Nat) (h : ¬n ≤ 2 * i + 1) :
    i < downChild l i n ∧ downChild l i n < n ∧ (downChild l i n - 1) / 2 = i := by
  rcases downChild_cases l i n with ⟨he, _⟩ | ⟨he, h2, _⟩ <;> rw [he] <;> omega

theorem downGo_length (l : List Stat) (i n : Nat) :
    (downGo l i n).length = l.length := by
  induction l, i, n using downGo.induct with
  | case1 l i n h =>
    rw [downGo, dif_pos h]
  | case2 l i n h hl ih =>
    rw [downGo, dif_neg h, if_pos hl, ih, length_swapAt]
  | case3 l i n h hl =>
    rw [downGo, dif_neg h, if_neg hl]

theorem downGo_perm (l : List Stat) (i n : Nat) :
    n ≤ l.length → (downGo l i n).Perm l := by
  induction l, i, n using downGo.induct with
  | case1 l i n h =>
    intro _
    rw [downGo, dif_pos h]
  | case2 l i n h hl ih =>
    intro hn
    obtain ⟨hgt, hjn, hpar⟩ := downChild_lt l i n h
    rw [downGo, dif_neg h, if_pos hl]
    refine (ih ?_).trans (swapAt_perm l i (downChild l i n) (by omega) (by omega))
    rw [length_swapAt]
    exact hn
  | case3 l i n h hl =>
    intro _
    rw [downGo, dif_neg h, if_neg hl]

theorem downGo_getD_ge (l : List Stat) (i n : Nat) (k : Nat) (hk : n ≤ k)
    (hin : i < n) : (downGo l i n).getD k default = l.getD k default := by
  induction l, i, n using downGo.induct with
  | case1 l i n h =>
    rw [downGo, dif_pos h]
  | case2 l i n h hl ih =>
    obtain ⟨hgt, hjn, hpar⟩ := downChild_lt l i n h
    rw [downGo, dif_neg h, if_pos hl, ih hk hjn]
    unfold swapAt
    rw [statD_set_ne _ _ _ _ (by omega), statD_set_ne _ _ _ _ (by omega)]
  | case3 l i n h hl =>
    rw [downGo, dif_neg h, if_neg hl]

theorem downGo_isHeapTo (l : List Stat) (i n : Nat) :
    n ≤ l.length → AlmostHeapDown l i n → IsHeapTo (downGo l i n) n := by
  induction l, i, n using downGo.induct with
  | case1 l i n h =>
    intro hn hA
    rw [downGo, dif_pos h]
    intro k hk hkn
    exact hA.1 k hk hkn (by omega)
  | case2 l i n h hl ih =>
    intro hn hA
    obtain ⟨ha, hgp⟩ := hA
    obtain ⟨hgt, hjn, hpar⟩ := downChild_lt l i n h
    have hl2 := hl
    rw [lessAt, decide_eq_true_eq] at hl2
    rw [downGo, dif_neg h, if_pos hl]
    have hjlen : downChild l i n < l.length := by omega
    have hilen : i < l.length := by omega
    have hij : i ≠ downChild l i n := by omega
    have hPi : pctAt (swapAt l i (downChild l i n)) i = pctAt l (downChild l i n) :=
      pctAt_swapAt_fst l i _ hilen hij
    have hPj : pctAt (swapAt l i (downChild l i n)) (downChild l i n) = pctAt l i :=
      pctAt_swapAt_snd l i _ hjlen
    have hPo : ∀ k, k ≠ i → k ≠ downChild l i n →
        pctAt (swapAt l i (downChild l i n)) k = pctAt l k :=
      fun k hki hkj => pctAt_swapAt_other l i _ k hki hkj
    have hmin : ∀ k, 0 < k → k < n → (k - 1) / 2 = i → k ≠ downChild l i n →
        pctAt l (downChild l i n) ≤ pctAt l k := by
      intro k hk0 hkn hkpar hkj
      rcases downChild_cases l i n with ⟨he, hright⟩ | ⟨he, h2, hlt⟩
      · have hk2 : k = 2 * i + 2 := by omega
        rw [he, hk2]
        exact hright (by omega)
      · have hk1 : k = 2 * i + 1 := by omega
        rw [he, hk1]
        exact le_of_lt hlt
    apply ih (by rw [length_swapAt]; exact hn)
    constructor
    · intro k hk hkn hkpar
      by_cases hki : k = i
      · subst hki
        have hp1 : (k - 1) / 2 ≠ k := by omega
        have hp2 : (k - 1) / 2 ≠ downChild l k n := by omega
        rw [hPo _ hp1 hp2, hPi]
        exact hgp hk _ hjn hpar
      · by_cases hkj : k = downChild l i n
        · subst hkj
          rw [hpar, hPj, hPi]
          exact le_of_lt hl2
        · by_cases hkpi : (k - 1) / 2 = i
          · rw [hPo k hki hkj, hkpi, hPi]
            exact hmin k hk hkn hkpi hkj
          · rw [hPo k hki hkj, hPo _ hkpi hkpar]
            exact ha k hk hkn hkpi
    · intro hj0 c hcn hcpar
      have hcne_i : c ≠ i := by omega
      have hcne_j : c ≠ downChild l i n := by omega
      rw [hpar, hPi, hPo c hcne_i hcne_j, ← hcpar]
      exact ha c (by omega) hcn (by omega)
  | case3 l i n h hl =>
    intro hn hA
    obtain ⟨ha, hgp⟩ := hA
    obtain ⟨hgt, hjn, hpar⟩ := downChild_lt l i n h
    have hl2 := hl
    rw [lessAt] at hl2
    simp only [decide_eq_true_eq] at hl2
    push_neg at hl2
    rw [downGo, dif_neg h, if_neg hl]
    intro k hk hkn
    by_cases hkpar : (k - 1) / 2 = i
    · by_cases hkj : k = downChild l i n
      · subst hkj
        rw [hpar]
        exact hl2
      · rcases downChild_cases l i n with ⟨he, hright⟩ | ⟨he, h2, hlt⟩
        · have hk2 : k = 2 * i + 2 := by omega
          rw [hkpar]
          rw [he] at hl2
          rw [hk2]
          exact le_trans hl2 (hright (by omega))
        · have hk1 : k = 2 * i + 1 := by omega
          rw [hkpar]
          rw [he] at hl2
          rw [hk1]
          exact le_trans hl2 (le_of_lt hlt)
    · exact ha k hk hkn hkpar

/-! ## Push, pop, and the root-minimum property -/

theorem isHeap_root_le (l : List Stat) (hH : IsHeap l) :
    ∀ i, i < l.length → pctAt l 0 ≤ pctAt l i := by
  intro i
  induction i using Nat.strong_induction_on with
  | _ i ih =>
    intro hi
    cases Nat.eq_zero_or_pos i with
    | inl h0 =>
      rw [h0]
    | inr hpos =>
      have hpar : (i - 1) / 2 < i := by omega
      exact le_trans (ih _ hpar (by omega)) (hH i hpos hi)

theorem statD_append_lt (l l2 : List Stat) (k : Nat) (h : k < l.length) :
    (l ++ l2).getD k default = l.getD k default := by
  rw [List.getD_eq_getElem?_getD, List.getElem?_append_left h, List.getD_eq_getElem?_getD]

theorem heapPush_perm (l : List Stat) (x : Stat) : (heapPush l x).Perm (x :: l) := by
  unfold heapPush
  refine (upGo_perm l.length (l ++ [x]) (by simp)).trans ?_
  exact List.perm_append_singleton x l

theorem heapPush_length (l : List Stat) (x : Stat) :
    (heapPush l x).length = l.length + 1 := by
  unfold heapPush
  rw [upGo_length]
  simp

theorem heapPush_isHeap (l : List Stat) (x : Stat) (h : IsHeap l) :
    IsHeap (heapPush l x) := by
  unfold heapPush
  apply upGo_isHeap l.length (l ++ [x]) (by simp)
  constructor
  · intro k hk hklen hkj
    have hkl : k < l.length := by
      simp at hklen
      omega
    have hparl : (k - 1) / 2 < l.length := by omega
    unfold pctAt
    rw [statD_append_lt _ _ _ hkl, statD_append_lt _ _ _ hparl]
    exact h k hk hkl
  · intro hj0 c hclen hc
    exfalso
    simp at hclen
    omega

theorem getD_swapAt_snd (l : List Stat) (i j : Nat) (hj : j < l.length) :
    (swapAt l i j).getD j default = l.getD i default := by
  unfold swapAt
  rw [statD_set_self _ _ _ (by simpa using hj)]

theorem statD_dropLast (l : List Stat) (k : Nat) (h : k < l.length - 1) :
    l.dropLast.getD k default = l.getD k default := by
  rw [List.dropLast_eq_take, List.getD_eq_getElem?_getD, List.getElem?_take,
    List.getD_eq_getElem?_getD]
  simp [Nat.lt_of_lt_of_le h (Nat.sub_le _ _), h]

theorem heapPop_perm (l : List Stat) (hne : 0 < l.length) :
    ((l.getD 0 default) :: heapPopList l).Perm l := by
  unfold heapPopList
  rw [if_neg (by omega)]
  have hlen2 : (swapAt l 0 (l.length - 1)).length = l.length := length_swapAt l _ _
  have hlen3 : (downGo (swapAt l 0 (l.length - 1)) 0 (l.length - 1)).length = l.length := by
    rw [downGo_length, length_swapAt]
  have hperm : (downGo (swapAt l 0 (l.length - 1)) 0 (l.length - 1)).Perm l := by
    refine (downGo_perm _ 0 _ (by omega)).trans (swapAt_perm l 0 _ hne (by omega))
  have hne2 : downGo (swapAt l 0 (l.length - 1)) 0 (l.length - 1) ≠ [] := by
    intro hl
    rw [hl] at hlen3
    simp at hlen3
    omega
  have hlast : (downGo (swapAt l 0 (l.length - 1)) 0 (l.length - 1)).getD
      (l.length - 1) default = l.getD 0 default := by
    cases Nat.eq_zero_or_pos (l.length - 1) with
    | inl h0 =>
      rw [h0]
      rw [downGo, dif_pos (by omega)]
      exact getD_swapAt_snd l 0 0 hne
    | inr hp =>
      rw [downGo_getD_ge _ _ _ _ (le_refl _) hp, getD_swapAt_snd l 0 _ (by omega)]
  have hdecomp : (downGo (swapAt l 0 (l.length - 1)) 0 (l.length - 1)).dropLast ++
      [l.getD 0 default] = downGo (swapAt l 0 (l.length - 1)) 0 (l.length - 1) := by
    rw [← hlast]
    have hg : (downGo (swapAt l 0 (l.length - 1)) 0 (l.length - 1)).getLast hne2 =
        (downGo (swapAt l 0 (l.length - 1)) 0 (l.length - 1)).getD (l.length - 1) default := by
      rw [List.getLast_eq_getElem, List.getD_eq_getElem?_getD,
        List.getElem?_eq_getElem (by omega)]
      simp [hlen3]
    rw [← hg]
    exact List.dropLast_append_getLast hne2
  have h1 : ((l.getD 0 default) ::
      (downGo (swapAt l 0 (l.length - 1)) 0 (l.length - 1)).dropLast).Perm
      ((downGo (swapAt l 0 (l.length - 1)) 0 (l.length - 1)).dropLast ++
        [l.getD 0 default]) :=
    (List.perm_append_singleton _ _).symm
  rw [hdecomp] at h1
  exact h1.trans hperm

theorem heapPop_length (l : List Stat) (hne : 0 < l.length) :
    (heapPopList l).length = l.length - 1 := by
  unfold heapPopList
  rw [if_neg (by omega), List.length_dropLast, downGo_length, length_swapAt]

theorem heapPop_isHeap (l : List Stat) (hH : IsHeap l) (hne : 0 < l.length) :
    IsHeap (heapPopList l) := by
  unfold heapPopList
  rw [if_neg (by omega)]
  have hto : IsHeapTo (downGo (swapAt l 0 (l.length - 1)) 0 (l.length - 1))
      (l.length - 1) := by
    apply downGo_isHeapTo _ _ _ (by rw [length_swapAt]; omega)
    constructor
    · intro k2 hk2 hk2n hk2par
      rw [pctAt_swapAt_other l 0 _ k2 (by omega) (by omega),
        pctAt_swapAt_other l 0 _ _ hk2par (by omega)]
      exact hH k2 hk2 (by omega)
    · intro h0
      exact absurd h0 (Nat.lt_irrefl 0)
  intro k hk hklen
  rw [List.length_dropLast, downGo_length, length_swapAt] at hklen
  have hres := hto k hk hklen
  unfold pctAt at hres ⊢
  rw [statD_dropLast _ _ (by rw [downGo_length, length_swapAt]; omega),
    statD_dropLast _ _ (by rw [downGo_length, length_swapAt]; omega)]
  exact hres

/-! ## The final descending sort -/

/-- Weakly descending by `Percentage`. -/
def SortedDescStat (l : List Stat) : Prop :=
  List.Pairwise (fun a b => b.percentage ≤ a.percentage) l

theorem insertStatDesc_perm (x : Stat) (l : List Stat) :
    (insertStatDesc x l).Perm (x :: l) := by
  induction l with
  | nil => exact List.Perm.refl _
  | cons y ys ih =>
    unfold insertStatDesc
    split
    · exact List.Perm.refl _
    · exact (ih.cons y).trans (List.Perm.swap x y ys)

theorem insertStatDesc_sorted (x : Stat) (l : List Stat) (h : SortedDescStat l) :
    SortedDescStat (insertStatDesc x l) := by
  induction l with
  | nil => simp [insertStatDesc, SortedDescStat]
  | cons y ys ih =>
    unfold insertStatDesc
    rw [SortedDescStat, List.pairwise_cons] at h
    obtain ⟨hy, hys⟩ := h
    split
    next hle =>
      rw [SortedDescStat, List.pairwise_cons]
      refine ⟨?_, List.pairwise_cons.mpr ⟨hy, hys⟩⟩
      intro b hb
      rcases List.mem_cons.mp hb with hb | hb
      · rw [hb]
        exact hle
      · exact le_trans (hy b hb) hle
    next hle =>
      rw [SortedDescStat, List.pairwise_cons]
      constructor
      · intro b hb
        have := (insertStatDesc_perm x ys).mem_iff.mp hb
        rcases List.mem_cons.mp this with hb2 | hb2
        · rw [hb2]
          exact le_of_lt (lt_of_not_le hle)
        · exact hy b hb2
      · exact ih hys

theorem sortStatsDesc_perm (l : List Stat) : (sortStatsDesc l).Perm l := by
  induction l with
  | nil => exact List.Perm.refl _
  | cons x xs ih =>
    exact (insertStatDesc_perm x (sortStatsDesc xs)).trans (ih.cons x)

theorem sortStatsDesc_sorted (l : List Stat) : SortedDescStat (sortStatsDesc l) := by
  induction l with
  | nil => simp [sortStatsDesc, SortedDescStat]
  | cons x xs ih => exact insertStatDesc_sorted x _ ih

theorem statD_eq_get (l : List Stat) (k : Nat) (h : k < l.length) :
    l.getD k default = l.get ⟨k, h⟩ := by
  rw [List.getD_eq_getElem?_getD, List.getElem?_eq_getElem h]
  rfl

theorem sortedDescStat_pctAt_le (L : List Stat) (h : SortedDescStat L) (i j : Nat)
    (hij : i ≤ j) (hj : j < L.length) : pctAt L j ≤ pctAt L i := by
  rcases Nat.lt_or_ge i j with hlt | hge
  · unfold pctAt
    rw [statD_eq_get L j hj, statD_eq_get L i (by omega)]
    exact (List.pairwise_iff_get.mp h) ⟨i, by omega⟩ ⟨j, hj⟩ hlt
  · have : i = j := by omega
    rw [this]

/-! ## Score multisets of sorted prefixes -/

/-- The multiset of scores of a list of stats. -/
def scoresOf (l : List Stat) : Multiset ℚ := ↑(l.map Stat.percentage)

theorem scoresOf_perm {l₁ l₂ : List Stat} (h : l₁.Perm l₂) : scoresOf l₁ = scoresOf l₂ :=
  Multiset.coe_eq_coe.mpr (h.map _)

theorem scoresOf_cons (x : Stat) (l : List Stat) :
    scoresOf (x :: l) = x.percentage ::ₘ scoresOf l := rfl

theorem pctAt_cons_zero (y : Stat) (ys : List Stat) : pctAt (y :: ys) 0 = y.percentage := rfl

theorem pctAt_cons_succ (y : Stat) (ys : List Stat) (m : Nat) :
    pctAt (y :: ys) (m + 1) = pctAt ys m := by
  unfold pctAt
  rw [List.getD_cons_succ]

theorem scoresOf_take_succ (L : List Stat) (m : Nat) (h : m < L.length) :
    scoresOf (L.take (m + 1)) = scoresOf (L.take m) + {pctAt L m} := by
  rw [List.take_succ, List.getElem?_eq_getElem h]
  show scoresOf (L.take m ++ [L[m]]) = _
  unfold scoresOf
  rw [List.map_append]
  have hp : pctAt L m = (L[m]).percentage := by
    unfold pctAt
    rw [statD_eq_get L m h]
    rfl
  rw [hp]
  rfl

theorem take_insert_scores_small (x : Stat) (L : List Stat) (n : Nat)
    (h : L.length < n) :
    scoresOf ((insertStatDesc x L).take n) = x.percentage ::ₘ scoresOf (L.take n) := by
  have hlen : (insertStatDesc x L).length = L.length + 1 := by
    rw [(insertStatDesc_perm x L).length_eq]
    simp
  rw [List.take_of_length_le (by omega), List.take_of_length_le (by omega),
    scoresOf_perm (insertStatDesc_perm x L), scoresOf_cons]

theorem take_insert_scores_big (x : Stat) (L : List Stat) (n : Nat)
    (hs : SortedDescStat L) (hn : 0 < n) (hln : n ≤ L.length)
    (hx : pctAt L (n - 1) < x.percentage) :
    scoresOf ((insertStatDesc x L).take n) =
      x.percentage ::ₘ scoresOf (L.take (n - 1)) := by
  induction L generalizing n with
  | nil =>
    simp at hln
    omega
  | cons y ys ih =>
    cases n with
    | zero => omega
    | succ m =>
      unfold insertStatDesc
      by_cases hxy : y.percentage ≤ x.percentage
      · rw [if_pos hxy, List.take_succ_cons, scoresOf_cons]
        simp
      · rw [if_neg hxy]
        cases m with
        | zero =>
          exfalso
          rw [pctAt_cons_zero] at hx
          exact hxy (le_of_lt hx)
        | succ m2 =>
          rw [List.take_succ_cons, scoresOf_cons]
          have hx2 : pctAt ys ((m2 + 1) - 1) < x.percentage := by
            rw [show (m2 + 1) - 1 = m2 by omega]
            rw [show (m2 + 1 + 1) - 1 = m2 + 1 by omega, pctAt_cons_succ] at hx
            exact hx
          rw [ih (m2 + 1) (List.Pairwise.of_cons hs) (by omega) (by simp at hln ⊢; omega) hx2]
          rw [show (m2 + 1 + 1) - 1 = m2 + 1 by omega, List.take_succ_cons, scoresOf_cons,
            show (m2 + 1) - 1 = m2 by omega]
          exact Multiset.cons_swap _ _ _

theorem take_insert_scores_tie (x : Stat) (L : List Stat) (n : Nat)
    (hs : SortedDescStat L) (hn : 0 < n) (hln : n ≤ L.length)
    (hx : x.percentage ≤ pctAt L (n - 1)) :
    scoresOf ((insertStatDesc x L).take n) = scoresOf (L.take n) := by
  induction L generalizing n with
  | nil =>
    simp at hln
    omega
  | cons y ys ih =>
    cases n with
    | zero => omega
    | succ m =>
      have hylast : pctAt (y :: ys) ((m + 1) - 1) ≤ y.percentage := by
        rw [← pctAt_cons_zero y ys]
        exact sortedDescStat_pctAt_le _ hs 0 _ (by omega) (by simp at hln ⊢; omega)
      unfold insertStatDesc
      by_cases hxy : y.percentage ≤ x.percentage
      · rw [if_pos hxy, List.take_succ_cons, scoresOf_cons]
        have hym : pctAt (y :: ys) ((m + 1) - 1) = y.percentage :=
          le_antisymm hylast (le_trans hxy hx)
        have hxq : x.percentage = pctAt (y :: ys) ((m + 1) - 1) :=
          le_antisymm hx (by rw [hym]; exact hxy)
        cases m with
        | zero =>
          rw [hxq, show (0 + 1) - 1 = 0 by omega, pctAt_cons_zero]
          simp [scoresOf]
        | succ m2 =>
          have hm2 : m2 < ys.length := by simp at hln ⊢; omega
          rw [show (m2 + 1 + 1) - 1 = m2 + 1 by omega, pctAt_cons_succ] at hxq
          rw [hxq, List.take_succ_cons, scoresOf_cons, List.take_succ_cons, scoresOf_cons,
            scoresOf_take_succ ys m2 hm2, Multiset.cons_swap]
          congr 1
          exact ((add_comm (scoresOf (List.take m2 ys)) {pctAt ys m2}).trans
            (Multiset.singleton_add _ _)).symm
      · rw [if_neg hxy]
        cases m with
        | zero =>
          rw [List.take_succ_cons, List.take_succ_cons]
          simp
        | succ m2 =>
          rw [List.take_succ_cons, scoresOf_cons, List.take_succ_cons, scoresOf_cons]
          have hx2 : x.percentage ≤ pctAt ys ((m2 + 1) - 1) := by
            rw [show (m2 + 1) - 1 = m2 by omega]
            rw [show (m2 + 1 + 1) - 1 = m2 + 1 by omega, pctAt_cons_succ] at hx
            exact hx
          rw [ih (m2 + 1) (List.Pairwise.of_cons hs) (by omega) (by simp at hln ⊢; omega) hx2]

theorem pct_map_sorted (l : List Stat) (h : SortedDescStat l) :
    List.Pairwise (fun a b : ℚ => b ≤ a) (l.map Stat.percentage) := by
  rw [List.pairwise_map]
  exact h

theorem sortedQ_eq_of_perm {l₁ l₂ : List ℚ} (hp : l₁.Perm l₂)
    (h₁ : List.Pairwise (fun a b : ℚ => b ≤ a) l₁)
    (h₂ : List.Pairwise (fun a b : ℚ => b ≤ a) l₂) : l₁ = l₂ := by
  haveI : IsAntisymm ℚ (fun a b : ℚ => b ≤ a) := ⟨fun a b hab hba => le_antisymm hba hab⟩
  exact List.eq_of_perm_of_sorted hp h₁ h₂

/-- Appending one stat to the stream and re-sorting yields the same
score list as inserting it into the previous sorted order. -/
theorem scores_sort_append (done : List Stat) (x : Stat) :
    (sortStatsDesc (done ++ [x])).map Stat.percentage =
      (insertStatDesc x (sortStatsDesc done)).map Stat.percentage := by
  apply sortedQ_eq_of_perm
  · apply List.Perm.map
    exact (sortStatsDesc_perm _).trans ((List.perm_append_singleton x done).trans
      (((sortStatsDesc_perm done).symm.cons x).trans
        (insertStatDesc_perm x (sortStatsDesc done)).symm))
  · exact pct_map_sorted _ (sortStatsDesc_sorted _)
  · exact pct_map_sorted _ (insertStatDesc_sorted x _ (sortStatsDesc_sorted done))

theorem scores_take_sort_append (done : List Stat) (x : Stat) (n : Nat) :
    scoresOf ((sortStatsDesc (done ++ [x])).take n) =
      scoresOf ((insertStatDesc x (sortStatsDesc done)).take n) := by
  unfold scoresOf
  rw [List.map_take, List.map_take, scores_sort_append]

/-! ## The `chooseTopN` scan invariant -/

/-- After some prefix `done` of the stats has been scanned, the heap
`top` is heap-ordered, holds `min n |done|` stats drawn from `done`, and
its score multiset is exactly the scores of the `n` best of `done`. -/
def TopInv (n : Nat) (top done : List Stat) : Prop :=
  IsHeap top ∧ top.length = min n done.length ∧
  (↑top : Multiset Stat) ≤ ↑done ∧
  scoresOf top = scoresOf ((sortStatsDesc done).take n)

theorem pctAt_mem_scores (l : List Stat) (i : Nat) (h : i < l.length) :
    pctAt l i ∈ scoresOf l := by
  unfold pctAt scoresOf
  rw [statD_eq_get l i h, Multiset.mem_coe]
  exact List.mem_map_of_mem _ (l.get_mem i h)

theorem scores_mem_pctAt (l : List Stat) (q : ℚ) (h : q ∈ scoresOf l) :
    ∃ i, i < l.length ∧ pctAt l i = q := by
  unfold scoresOf at h
  rw [Multiset.mem_coe, List.mem_map] at h
  obtain ⟨a, ha, hq⟩ := h
  obtain ⟨i, hget⟩ := List.mem_iff_get.mp ha
  refine ⟨i, i.isLt, ?_⟩
  unfold pctAt
  rw [statD_eq_get l i i.isLt]
  simp only [Fin.eta, hget]
  exact hq

theorem length_sortStatsDesc (l : List Stat) :
    (sortStatsDesc l).length = l.length :=
  (sortStatsDesc_perm l).length_eq

/-- With a full heap, the root score is exactly the `n`-th best score of
the scanned prefix. -/
theorem topInv_root_eq (n : Nat) (top done : List Stat) (hn : 0 < n)
    (hI : TopInv n top done) (hfull : top.length = n) :
    pctAt top 0 = pctAt (sortStatsDesc done) (n - 1) := by
  obtain ⟨hH, hlen, hsub, hsc⟩ := hI
  have hdlen : n ≤ done.length := by
    rw [hfull] at hlen
    rcases Nat.le_total n done.length with h | h
    · exact h
    · rw [Nat.min_eq_right h] at hlen
      omega
  have hSlen : n ≤ (sortStatsDesc done).length := by
    rw [length_sortStatsDesc]
    exact hdlen
  have htlen : (((sortStatsDesc done)).take n).length = n := by
    rw [List.length_take]
    omega
  -- the root score is a member and a lower bound of the heap scores
  have hrmem : pctAt top 0 ∈ scoresOf top := pctAt_mem_scores top 0 (by omega)
  have hrlb : ∀ q ∈ scoresOf top, pctAt top 0 ≤ q := by
    intro q hq
    obtain ⟨i, hi, hpi⟩ := scores_mem_pctAt top q hq
    rw [← hpi]
    exact isHeap_root_le top hH i hi
  -- the n-1-st sorted score is a member and a lower bound of the top-n scores
  have hsmem : pctAt (sortStatsDesc done) (n - 1) ∈
      scoresOf ((sortStatsDesc done).take n) := by
    have h1 : pctAt ((sortStatsDesc done).take n) (n - 1) =
        pctAt (sortStatsDesc done) (n - 1) := by
      unfold pctAt
      rw [List.getD_eq_getElem?_getD, List.getElem?_take, List.getD_eq_getElem?_getD]
      simp [show n - 1 < n by omega]
    rw [← h1]
    exact pctAt_mem_scores _ _ (by omega)
  have hslb : ∀ q ∈ scoresOf ((sortStatsDesc done).take n),
      pctAt (sortStatsDesc done) (n - 1) ≤ q := by
    intro q hq
    obtain ⟨i, hi, hpi⟩ := scores_mem_pctAt _ q hq
    rw [htlen] at hi
    have h1 : pctAt ((sortStatsDesc done).take n) i = pctAt (sortStatsDesc done) i := by
      unfold pctAt
      rw [List.getD_eq_getElem?_getD, List.getElem?_take, List.getD_eq_getElem?_getD]
      simp [hi]
    rw [← hpi, h1]
    exact sortedDescStat_pctAt_le _ (sortStatsDesc_sorted done) i (n - 1) (by omega) (by omega)
  have h1 : pctAt (sortStatsDesc done) (n - 1) ≤ pctAt top 0 := by
    apply hslb
    rw [← hsc]
    exact hrmem
  have h2 : pctAt top 0 ≤ pctAt (sortStatsDesc done) (n - 1) := by
    apply hrlb
    rw [hsc]
    exact hsmem
  exact le_antisymm h2 h1

/-- One scan step preserves the invariant (and cannot panic when `n ≥ 1`). -/
theorem topStep_inv (n : Nat) (hn : 0 < n) (top done : List Stat) (x : Stat)
    (hI : TopInv n top done) :
    ∃ top2, chooseTopNStep n top x = some top2 ∧ TopInv n top2 (done ++ [x]) := by
  obtain ⟨hH, hlen, hsub, hsc⟩ := hI
  have hsorted : SortedDescStat (sortStatsDesc done) := sortStatsDesc_sorted done
  have hSlen : (sortStatsDesc done).length = done.length := length_sortStatsDesc done
  by_cases hlt : top.length < n
  · have hdl : done.length < n := by
      rcases Nat.le_total n done.length with h | h
      · rw [Nat.min_eq_left h] at hlen
        omega
      · omega
    refine ⟨heapPush top x, ?_, ?_, ?_, ?_, ?_⟩
    · unfold chooseTopNStep
      rw [if_pos hlt, if_neg (by omega)]
    · exact heapPush_isHeap top x hH
    · rw [heapPush_length, hlen, List.length_append]
      simp
      omega
    · have h1 : (↑(heapPush top x) : Multiset Stat) = x ::ₘ ↑top :=
        Multiset.coe_eq_coe.mpr (heapPush_perm top x)
      have h2 : (↑(done ++ [x]) : Multiset Stat) = x ::ₘ ↑done :=
        Multiset.coe_eq_coe.mpr (List.perm_append_singleton x done)
      rw [h1, h2]
      exact Multiset.cons_le_cons x hsub
    · rw [scores_take_sort_append, take_insert_scores_small x _ n (by rw [hSlen]; omega),
        ← hsc, scoresOf_perm (heapPush_perm top x), scoresOf_cons]
  · have htn : top.length = n := by omega
    have hdlen : n ≤ done.length := by omega
    have htop0 : 0 < top.length := by omega
    have hroot := topInv_root_eq n top done hn ⟨hH, hlen, hsub, hsc⟩ htn
    by_cases hx : pctAt top 0 < x.percentage
    · refine ⟨heapPush (heapPopList top) x, ?_, ?_, ?_, ?_, ?_⟩
      · unfold chooseTopNStep
        rw [if_neg hlt, if_neg (by omega), if_pos hx, if_pos htn]
      · exact heapPush_isHeap _ x (heapPop_isHeap top hH htop0)
      · rw [heapPush_length, heapPop_length top htop0, htn, List.length_append]
        simp
        omega
      · have hpop : (↑(heapPopList top) : Multiset Stat) ≤ ↑top := by
          have h0 := Multiset.coe_eq_coe.mpr (heapPop_perm top htop0)
          rw [← h0]
          exact Multiset.le_cons_self _ _
        have h1 : (↑(heapPush (heapPopList top) x) : Multiset Stat) =
            x ::ₘ ↑(heapPopList top) :=
          Multiset.coe_eq_coe.mpr (heapPush_perm _ x)
        have h2 : (↑(done ++ [x]) : Multiset Stat) = x ::ₘ ↑done :=
          Multiset.coe_eq_coe.mpr (List.perm_append_singleton x done)
        rw [h1, h2]
        exact Multiset.cons_le_cons x (le_trans hpop hsub)
      · have hpopscore : pctAt top 0 ::ₘ scoresOf (heapPopList top) = scoresOf top := by
          have h4 := scoresOf_perm (heapPop_perm top htop0)
          rw [scoresOf_cons] at h4
          exact h4
        have htakes : scoresOf ((sortStatsDesc done).take n) =
            scoresOf ((sortStatsDesc done).take (n - 1)) +
              {pctAt (sortStatsDesc done) (n - 1)} := by
          have h5 := scoresOf_take_succ (sortStatsDesc done) (n - 1) (by rw [hSlen]; omega)
          rw [show n - 1 + 1 = n by omega] at h5
          exact h5
        have hpop2 : scoresOf (heapPopList top) =
            scoresOf ((sortStatsDesc done).take (n - 1)) := by
          have h3 : pctAt top 0 ::ₘ scoresOf (heapPopList top) =
              pctAt top 0 ::ₘ scoresOf ((sortStatsDesc done).take (n - 1)) := by
            rw [hpopscore, hsc, htakes, hroot, add_comm, Multiset.singleton_add]
          exact (Multiset.cons_inj_right _).mp h3
        rw [scores_take_sort_append,
          take_insert_scores_big x _ n hsorted hn (by rw [hSlen]; omega)
            (by rw [← hroot]; exact hx),
          scoresOf_perm (heapPush_perm _ x), scoresOf_cons, hpop2]
    · refine ⟨top, ?_, hH, ?_, ?_, ?_⟩
      · unfold chooseTopNStep
        rw [if_neg hlt, if_neg (by omega), if_neg hx]
      · rw [htn, List.length_append]
        simp
        omega
      · refine le_trans hsub ?_
        have h2 : (↑(done ++ [x]) : Multiset Stat) = x ::ₘ ↑done :=
          Multiset.coe_eq_coe.mpr (List.perm_append_singleton x done)
        rw [h2]
        exact Multiset.le_cons_self _ _
      · rw [scores_take_sort_append,
          take_insert_scores_tie x _ n hsorted hn (by rw [hSlen]; omega)
            (by rw [← hroot]; exact not_lt.mp hx)]
        exact hsc

theorem topLoop_inv (n : Nat) (hn : 0 < n) :
    ∀ (rest top done : List Stat), TopInv n top done →
    ∃ tf, chooseTopNLoop n top rest = some tf ∧ TopInv n tf (done ++ rest) := by
  intro rest
  induction rest with
  | nil =>
    intro top done hI
    exact ⟨top, rfl, by simpa using hI⟩
  | cons x rest2 ih =>
    intro top done hI
    obtain ⟨top2, hstep, hI2⟩ := topStep_inv n hn top done x hI
    obtain ⟨tf, hloop, hIf⟩ := ih top2 (done ++ [x]) hI2
    refine ⟨tf, ?_, ?_⟩
    · show (match chooseTopNStep n top x with
        | none => none
        | some t2 => chooseTopNLoop n t2 rest2) = some tf
      rw [hstep]
      exact hloop
    · rw [List.append_assoc] at hIf
      simpa using hIf

theorem topInv_nil (n : Nat) : TopInv n [] [] := by
  refine ⟨?_, by simp, le_refl _, by simp [sortStatsDesc, scoresOf]⟩
  intro k hk hklen
  simp at hklen

/-- The scan plus final sort: for `n ≥ 1` it cannot panic, and it
returns a descending list drawn from `s` whose score list is exactly the
first `n` of the descending sort of all the scores. -/
theorem chooseTopNGo_spec (n : Nat) (hn : 0 < n) (s : List Stat) :
    ∃ r, chooseTopNGo n s = some r ∧
      r.map Stat.percentage = ((sortStatsDesc s).take n).map Stat.percentage ∧
      (↑r : Multiset Stat) ≤ ↑s ∧
      SortedDescStat r := by
  obtain ⟨tf, hloop, hH, hlen, hsub, hsc⟩ := topLoop_inv n hn s [] [] (topInv_nil n)
  refine ⟨sortStatsDesc tf, ?_, ?_, ?_, sortStatsDesc_sorted tf⟩
  · unfold chooseTopNGo
    rw [show heapInit [] = [] from rfl, hloop]
  · apply sortedQ_eq_of_perm
    · have h1 : scoresOf (sortStatsDesc tf) = scoresOf ((sortStatsDesc s).take n) := by
        rw [scoresOf_perm (sortStatsDesc_perm tf)]
        exact hsc
      exact Multiset.coe_eq_coe.mp h1
    · exact pct_map_sorted _ (sortStatsDesc_sorted tf)
    · exact pct_map_sorted _ ((sortStatsDesc_sorted s).sublist (List.take_sublist n _))
  · rw [Multiset.coe_eq_coe.mpr (sortStatsDesc_perm tf)]
    exact hsub

theorem scores_inj (s : List Stat)
    (h : (s.map Stat.percentage).Pairwise (fun a b => a ≠ b)) :
    ∀ a ∈ s, ∀ b ∈ s, a.percentage = b.percentage → a = b := by
  induction s with
  | nil => simp
  | cons c t ih =>
    rw [List.map_cons, List.pairwise_cons] at h
    obtain ⟨hc, ht⟩ := h
    intro a ha b hb heq
    rcases List.mem_cons.mp ha with ha | ha <;> rcases List.mem_cons.mp hb with hb | hb
    · rw [ha, hb]
    · exfalso
      rw [ha] at heq
      exact hc b.percentage (List.mem_map_of_mem _ hb) heq
    · exfalso
      rw [hb] at heq
      exact hc a.percentage (List.mem_map_of_mem _ ha) heq.symm
    · exact ih ht a ha b hb heq

theorem stats_eq_of_scores_eq (s : List Stat)
    (hinj : ∀ a ∈ s, ∀ b ∈ s, a.percentage = b.percentage → a = b) :
    ∀ (r t : List Stat), (∀ a ∈ r, a ∈ s) → (∀ a ∈ t, a ∈ s) →
      r.map Stat.percentage = t.map Stat.percentage → r = t := by
  intro r
  induction r with
  | nil =>
    intro t _ _ hmap
    cases t with
    | nil => rfl
    | cons b t2 => simp at hmap
  | cons a r2 ih =>
    intro t hr ht hmap
    cases t with
    | nil => simp at hmap
    | cons b t2 =>
      simp only [List.map_cons, List.cons.injEq] at hmap
      obtain ⟨h1, h2⟩ := hmap
      have hab : a = b := hinj a (hr a (by simp)) b (ht b (by simp)) h1
      rw [hab, ih t2 (fun y hy => hr y (by simp [hy])) (fun y hy => ht y (by simp [hy])) h2]

/-- **C1** (corrected) — counterexample, two parts.  (1) For `n = 0`
and a nonempty stats list the claim promises the empty selection;
instead the loop evaluates `top[0].Percentage` on the empty heap (since
`top.Len() < 0` is false), an index-out-of-range panic, modelled as
`none`.  (2) With tied scores at the cut the result need not equal "the
first n of the input sorted descending": the selector keeps `b` where
the (stable) descending sort of the input puts `a` in the first two. -/
theorem c1_counterexample :
    chooseTopNGo 0 [⟨"only", 2⟩] = none ∧
    chooseTopNGo 2 [⟨"a", mkRat 1 2⟩, ⟨"b", mkRat 1 2⟩, ⟨"c", mkRat 9 10⟩] =
      some [⟨"c", mkRat 9 10⟩, ⟨"b", mkRat 1 2⟩] ∧
    (sortStatsDesc [⟨"a", mkRat 1 2⟩, ⟨"b", mkRat 1 2⟩, ⟨"c", mkRat 9 10⟩]).take 2 =
      [⟨"c", mkRat 9 10⟩, ⟨"a", mkRat 1 2⟩] := by
  refine ⟨rfl, ?_, by decide⟩
  simp +decide [chooseTopNGo, chooseTopNLoop, chooseTopNStep, heapInit, heapPush,
    heapPopList, upGo, downGo, downChild, swapAt, lessAt, pctAt, sortStatsDesc,
    insertStatDesc]

/-- **C1** (corrected) — amended claim.  For every `n ≥ 1` (the `n = 0`
case panics on nonempty input) `chooseTopN` returns, without failing, a
list whose scores are exactly the scores of the first `n` stats in
descending order; when all scores are pairwise distinct it is exactly
the first `n` of the descending sort, and when `n` is at least the
number of stats it is a descending permutation of all of them. -/
theorem c1_top_n_selector (n : Nat) (s : List Stat) (hn : 1 ≤ n) :
    ∃ r, chooseTopNGo n s = some r ∧
      r.map Stat.percentage = ((sortStatsDesc s).take n).map Stat.percentage ∧
      ((s.map Stat.percentage).Pairwise (fun a b => a ≠ b) →
        r = (sortStatsDesc s).take n) ∧
      (s.length ≤ n → r.Perm s) := by
  obtain ⟨r, hgo, hmap, hsub, hsorted⟩ := chooseTopNGo_spec n hn s
  refine ⟨r, hgo, hmap, ?_, ?_⟩
  · intro hdist
    apply stats_eq_of_scores_eq s (scores_inj s hdist) r _ _ _ hmap
    · intro a ha
      exact Multiset.mem_coe.mp (Multiset.mem_of_le hsub (Multiset.mem_coe.mpr ha))
    · intro a ha
      exact (sortStatsDesc_perm s).mem_iff.mp (List.mem_of_mem_take ha)
  · intro hsn
    have hlenr : r.length = s.length := by
      have hcong := congrArg List.length hmap
      simp only [List.length_map, List.length_take, length_sortStatsDesc] at hcong
      omega
    have heq : (↑r : Multiset Stat) = ↑s := by
      apply Multiset.eq_of_le_of_card_le hsub
      simp [hlenr]
    exact Multiset.coe_eq_coe.mp heq

/-- Witness for C1 (amended) at `n = 1` on a singleton. -/
theorem c1_top_n_selector_witness :
    ∃ r, chooseTopNGo 1 [⟨"w", 1⟩] = some r ∧
      r.map Stat.percentage =
        ((sortStatsDesc [⟨"w", 1⟩]).take 1).map Stat.percentage ∧
      (([(⟨"w", 1⟩ : Stat)].map Stat.percentage).Pairwise (fun a b => a ≠ b) →
        r = (sortStatsDesc [⟨"w", 1⟩]).take 1) ∧
      (([(⟨"w", 1⟩ : Stat)]).length ≤ 1 → r.Perm [⟨"w", 1⟩]) :=
  c1_top_n_selector 1 [⟨"w", 1⟩] (by decide)

/-- **C7** (corrected) — counterexample.  `chooseTopN(0, …)` on a
nonempty list does not return an empty sequence: it reads `top[0]` on
the empty heap, an out-of-bounds access (modelled `none`). -/
theorem c7_counterexample : chooseTopNGo 0 [⟨"solo", 1⟩] = none := rfl

/-- **C7** (corrected) — amended claim.  On an empty stats list the
selector returns the empty sequence without failing, for every `n`; but
for `n = 0` with a nonempty list it performs the out-of-bounds read
(in the program `n = min(3, len(stats))`, so that case is unreachable
from `FindReviewers`). -/
theorem c7_empty_cases (n : Nat) (x : Stat) (t : List Stat) :
    chooseTopNGo n [] = some [] ∧ chooseTopNGo 0 (x :: t) = none := by
  constructor
  · rfl
  · rfl

/-- **C6** (corrected) — counterexample.  Input order of the three
½-scored stats is a, b, c; after the heap phase and the final sort the
result lists c before b, so equal-scored entries do not retain their
input (discovery) order — the extraction is not a stable sort with
respect to the scanned sequence. -/
theorem c6_counterexample :
    chooseTopNGo 3 [⟨"a", mkRat 1 2⟩, ⟨"b", mkRat 1 2⟩, ⟨"c", mkRat 1 2⟩,
        ⟨"d", mkRat 9 10⟩] =
      some [⟨"d", mkRat 9 10⟩, ⟨"c", mkRat 1 2⟩, ⟨"b", mkRat 1 2⟩] ∧
    ¬ List.Sublist
      [(⟨"c", mkRat 1 2⟩ : Stat), ⟨"b", mkRat 1 2⟩]
      [(⟨"a", mkRat 1 2⟩ : Stat), ⟨"b", mkRat 1 2⟩, ⟨"c", mkRat 1 2⟩] := by
  constructor
  · simp +decide [chooseTopNGo, chooseTopNLoop, chooseTopNStep, heapInit, heapPush,
      heapPopList, upGo, downGo, downChild, swapAt, lessAt, pctAt, sortStatsDesc,
      insertStatDesc]
  · decide

/-- **C6** (corrected) — amended claim.  The final extraction applies a
descending (but not input-stable) sort: every successful result of the
selector is weakly descending by score, and equal-scored entries appear
in the deterministic order left by the heap, not the input order. -/
theorem c6_descending (n : Nat) (s r : List Stat)
    (h : chooseTopNGo n s = some r) : SortedDescStat r := by
  unfold chooseTopNGo at h
  cases hl : chooseTopNLoop n (heapInit []) s with
  | none =>
    rw [hl] at h
    simp at h
  | some top =>
    rw [hl] at h
    simp only [Option.some.injEq] at h
    rw [← h]
    exact sortStatsDesc_sorted top

/-- Witness for C6 (amended) on a singleton run. -/
theorem c6_descending_witness : SortedDescStat [⟨"w", 1⟩] :=
  c6_descending 1 [⟨"w", 1⟩] [⟨"w", 1⟩] (by
    simp +decide [chooseTopNGo, chooseTopNLoop, chooseTopNStep, heapInit, heapPush,
      heapPopList, upGo, downGo, downChild, swapAt, lessAt, pctAt, sortStatsDesc,
      insertStatDesc])

/-! ## C4: the zero-total outcome -/

theorem chListLt_nil_right (L : List Char) : chListLt L [] = false := by
  cases L <;> rfl

theorem retained_replicate_const (m : Nat) (e d : String) :
    retainedAttributions "" [] (List.replicate m ⟨e, d⟩) = List.replicate m e := by
  unfold retainedAttributions
  rw [List.filter_eq_self.mpr ?_, List.map_replicate]
  · rfl
  · intro a ha
    rw [List.eq_of_mem_replicate ha]
    show (!chListLt d.data "".data) = true
    rw [show ("" : String).data = [] from rfl, chListLt_nil_right]
    rfl

theorem agg_foldl_replicate (a : String) : ∀ (m k t : Nat), t < 65536 →
    (List.replicate m a).foldl aggStep ⟨[(a, k)], t⟩ =
      ⟨[(a, k + m)], (t + m) % 65536⟩ := by
  intro m
  induction m with
  | zero =>
    intro k t ht
    simp [Nat.mod_eq_of_lt ht]
  | succ mm ih =>
    intro k t ht
    rw [List.replicate_succ, List.foldl_cons]
    have hstep : aggStep ⟨[(a, k)], t⟩ a = ⟨[(a, k + 1)], (t + 1) % 65536⟩ := by
      simp [aggStep, incr]
    rw [hstep, ih (k + 1) _ (Nat.mod_lt _ (by omega))]
    have h1 : k + 1 + mm = k + (mm + 1) := by omega
    have h2 : ((t + 1) % 65536 + mm) % 65536 = (t + (mm + 1)) % 65536 := by
      rw [Nat.mod_add_mod]
      congr 1
      omega
    rw [h1, h2]

theorem aggregate_replicate (a : String) (m : Nat) (hm : 0 < m) :
    aggregate (List.replicate m a) = ⟨[(a, m)], m % 65536⟩ := by
  obtain ⟨mm, rfl⟩ : ∃ mm, m = mm + 1 := ⟨m - 1, by omega⟩
  unfold aggregate
  rw [List.replicate_succ, List.foldl_cons]
  have hstep : aggStep ⟨[], 0⟩ a = ⟨[(a, 1)], 1⟩ := by
    simp [aggStep, incr]
  rw [hstep, agg_foldl_replicate a mm 1 1 (by omega)]
  have h1 : 1 + mm = mm + 1 := by omega
  rw [h1]

theorem chooseTopNGo_length (n : Nat) (hn : 0 < n) (s r : List Stat)
    (h : chooseTopNGo n s = some r) : r.length = min n s.length := by
  obtain ⟨r2, hgo, hmap, _, _⟩ := chooseTopNGo_spec n hn s
  rw [h] at hgo
  have hrr : r = r2 := by
    injection hgo
  subst hrr
  have hcong := congrArg List.length hmap
  rw [List.length_map, List.length_map, List.length_take, length_sortStatsDesc] at hcong
  exact hcong

theorem rankFromState_nil (st : AggState) (h : st.committers = []) :
    rankFromState st = some (.error .noReviewers) := by
  unfold rankFromState
  rw [h]
  rfl

theorem rankFromState_ne_nil (st : AggState) (h : st.committers ≠ []) :
    ∃ res, rankFromState st = some (.ok res) ∧ res ≠ [] := by
  unfold rankFromState
  have hflen : 0 < (st.committers.map
      (fun p => Stat.mk p.1 ((p.2 : ℚ) / (st.totalLines : ℚ)))).length := by
    rw [List.length_map]
    exact List.length_pos.mpr h
  have hmin : 0 < min 3 (st.committers.map
      (fun p => Stat.mk p.1 ((p.2 : ℚ) / (st.totalLines : ℚ)))).length := by
    omega
  obtain ⟨r, hgo, hmap, _, _⟩ := chooseTopNGo_spec _ hmin
    (st.committers.map (fun p => Stat.mk p.1 ((p.2 : ℚ) / (st.totalLines : ℚ))))
  have hrlen : 0 < r.length := by
    rw [chooseTopNGo_length _ hmin _ r hgo]
    omega
  refine ⟨r, ?_, List.ne_nil_of_length_pos hrlen⟩
  rw [hgo]
  show (if r.length = 0 then some (Except.error RunErr.noReviewers)
    else some (Except.ok r)) = some (Except.ok r)
  rw [if_neg (by omega)]

/-- **C4** (corrected) — counterexample.  After 65536 retained lines the
`uint16` grand total has wrapped to exactly 0, yet the run does not
return the no-reviewers outcome: it produces a ranked result (indeed the
code then divides by the zero total — Go would print `+Inf`
percentages). -/
theorem c4_counterexample :
    generateCounts "" [] [some (List.replicate 65536 ⟨"a@wrap", "2030-01-01"⟩)] =
      .ok ⟨[("a@wrap", 65536)], 0⟩ ∧
    ∃ res, findReviewers "" [] [some (List.replicate 65536 ⟨"a@wrap", "2030-01-01"⟩)] =
      some (.ok res) := by
  have hA : (([some (List.replicate 65536 (⟨"a@wrap", "2030-01-01"⟩ : BlameLine))].filterMap
      id).map (retainedAttributions "" [])).flatten = List.replicate 65536 "a@wrap" := by
    show retainedAttributions "" [] (List.replicate 65536 ⟨"a@wrap", "2030-01-01"⟩) ++ [] =
      List.replicate 65536 "a@wrap"
    rw [List.append_nil, retained_replicate_const]
  have hgen : generateCounts "" [] [some (List.replicate 65536 ⟨"a@wrap", "2030-01-01"⟩)] =
      .ok ⟨[("a@wrap", 65536)], 0⟩ := by
    unfold generateCounts
    rw [if_neg (by decide), hA, aggregate_replicate _ _ (by omega)]
  refine ⟨hgen, ?_⟩
  have hfr : findReviewers "" [] [some (List.replicate 65536 ⟨"a@wrap", "2030-01-01"⟩)] =
      rankFromState ⟨[("a@wrap", 65536)], 0⟩ := by
    unfold findReviewers
    rw [hgen]
  obtain ⟨res, hres, _⟩ := rankFromState_ne_nil ⟨[("a@wrap", 65536)], 0⟩ (by simp)
  exact ⟨res, by rw [hfr, hres]⟩

/-- **C4** (corrected) — amended claim.  The run returns the
no-reviewers outcome (distinct from the blame-failure outcome) exactly
when blame succeeded everywhere and *no attribution record was
retained*; a wrapped-to-zero `uint16` grand total alone (65536 retained
lines) does not trigger it. -/
theorem c4_no_data_error (since : String) (mm : List (String × String))
    (blames : List (Option (List BlameLine))) :
    (findReviewers since mm blames = some (.error .noReviewers) ↔
      (blames.any (fun b => b.isNone) = false ∧
        ((blames.filterMap id).map (retainedAttributions since mm)).flatten = [])) ∧
    RunErr.noReviewers ≠ RunErr.blameFailed := by
  refine ⟨?_, by simp⟩
  by_cases hany : blames.any (fun b => b.isNone) = true
  · have hf : findReviewers since mm blames = some (.error .blameFailed) := by
      unfold findReviewers generateCounts
      rw [if_pos hany]
    rw [hf, hany]
    simp
  · have hok : blames.any (fun b => b.isNone) = false := by
      cases hh : blames.any (fun b => b.isNone)
      · rfl
      · exact absurd hh hany
    have hgen : generateCounts since mm blames =
        .ok (aggregate (((blames.filterMap id).map
          (retainedAttributions since mm)).flatten)) := by
      unfold generateCounts
      rw [if_neg (by rw [hok]; simp)]
    have hfr : findReviewers since mm blames = rankFromState
        (aggregate (((blames.filterMap id).map
          (retainedAttributions since mm)).flatten)) := by
      unfold findReviewers
      rw [hgen]
    by_cases hnil : ((blames.filterMap id).map (retainedAttributions since mm)).flatten = []
    · rw [hfr, rankFromState_nil _ ((aggregate_committers_nil_iff _).mpr hnil)]
      simp [hok, hnil]
    · obtain ⟨res, hres, _⟩ := rankFromState_ne_nil _ (by
        rw [Ne, aggregate_committers_nil_iff]
        exact hnil)
      rw [hfr, hres]
      simp [hnil]
